import Mathlib

/-!
Verification of `ThreadSafe::Queue` (src/queue_ts.hpp), a mutex-protected
queue template `Queue<T, SmartPtr, Cmp>` storing `SmartPtr<T>` handles in
either a `std::queue` (FIFO, `Cmp = void`) or a `std::priority_queue`
(`Cmp` non-void, used as the `Compare` parameter at element type
`SmartPtr<T>`).

The embedding models the queue's observable sequential behaviour.  The
mutex and condition variable serialize the bodies of `push`, `_pop` and the
`pop_*` methods; each such critical section is modelled as one atomic step
on the queue state.  Blocking waits are modelled by passing in the sequence
of states observed at successive wakeups (producers may run while the lock
is released inside a wait).
-/

namespace ThreadSafe

/-- A `SmartPtr<T>` value: either null (`none`) or a pointer to a heap
cell, modelled as the pair of the cell's address and the value stored in
it.  The address component identifies the allocation, so two pointers are
the same pointer exactly when the pairs are equal. -/
abbrev Ptr (α : Type) := Option (Nat × α)

/-- The `Cmp` template argument of `Queue` (src/queue_ts.hpp line 25):
`void` selects `std::queue<SmartPtr<T>>`; a non-void comparator selects
`std::priority_queue<SmartPtr<T>, std::vector<SmartPtr<T>>, Cmp>`
(lines 50-52), in which `Cmp` is applied directly to the stored
`SmartPtr<T>` handles — the container never dereferences them. -/
inductive CmpArg (α : Type) where
  | void : CmpArg α
  | cmp (f : Ptr α → Ptr α → Bool) : CmpArg α

/-- The state of one `Queue` object: the protected `_container`
(src/queue_ts.hpp line 55) as the list of stored handles, front first, plus
the model's allocator counter giving the address of the next heap cell
`new T(...)` will return.  The `_lock` and `_cv` members are represented by
the atomic-step semantics, not by data. -/
structure Queue (α : Type) where
  _container : List (Ptr α)
  nextAlloc : Nat

/-- A default-constructed `Queue`: empty container. -/
def emptyQueue (α : Type) : Queue α := ⟨[], 0⟩

/-- `std::priority_queue::top()` under comparator `f`: a greatest stored
element.  The standard leaves the order among tied elements unspecified;
the model fixes the deterministic refinement that scans the stored sequence
keeping the current candidate unless a strictly greater element appears. -/
def heapTop (f : Ptr α → Ptr α → Bool) (p : Ptr α) (rest : List (Ptr α)) : Ptr α :=
  rest.foldl (fun acc x => if f acc x then x else acc) p

/-- Removal of the first occurrence of a handle from the stored sequence;
this is the observable effect of `pop()` on the standard container: the
element returned by `front()`/`top()` is no longer stored. -/
def removeFirst [DecidableEq α] (t : Ptr α) : List (Ptr α) → List (Ptr α)
  | [] => []
  | x :: xs => if x = t then xs else x :: removeFirst t xs

/-- `Queue::_pop` (src/queue_ts.hpp lines 74-87): moves out
`_container.front()` (FIFO) or `_container.top()` (priority), calls
`_container.pop()`, and returns the moved handle.  The queue only calls
`_pop` with a non-empty container (`front`/`top` on an empty standard
container is undefined); the empty case is mapped to the vacuous result
(null, state unchanged). -/
def _pop [DecidableEq α] (m : CmpArg α) (s : Queue α) : Ptr α × Queue α :=
  match s._container with
  | [] => (none, s)
  | p :: rest =>
    match m with
    | .void => (p, ⟨rest, s.nextAlloc⟩)
    | .cmp f =>
        let t := heapTop f p rest
        (t, ⟨removeFirst t (p :: rest), s.nextAlloc⟩)

/-- `Queue::push` (src/queue_ts.hpp lines 60-72; the copy and move
overloads have the same observable effect): under the lock, inserts
`SmartPtr<T>(new T(value))` — a freshly allocated, necessarily non-null
handle, modelled as the next unused address — into the container and
notifies one waiter.  `std::queue::push` appends at the back; the internal
heap layout of `std::priority_queue` is not observable (only `top`/`pop`
selection is), so insertion is modelled as appending in both modes. -/
def push (v : α) (s : Queue α) : Queue α :=
  ⟨s._container ++ [some (s.nextAlloc, v)], s.nextAlloc + 1⟩

/-- `Queue::pop_try` (src/queue_ts.hpp lines 100-108): under the lock, if
the container is empty return `nullptr` immediately, otherwise `_pop`. -/
def pop_try [DecidableEq α] (m : CmpArg α) (s : Queue α) : Ptr α × Queue α :=
  if s._container.isEmpty then (none, s) else _pop m s

/-- `Queue::pop_must` (src/queue_ts.hpp lines 90-97): under the lock, if
the container is empty, wait on `_cv` re-checking the non-empty predicate
at every wake, then `_pop`.  `wakes` lists the queue states observed at
successive wakeups (producers run while the wait releases the lock); a
`none` result means the call has not returned — it is still blocked after
all the listed wakeups. -/
def pop_must [DecidableEq α] (m : CmpArg α) (wakes : List (Queue α)) (s : Queue α) :
    Option (Ptr α × Queue α) :=
  if s._container.isEmpty then
    match wakes with
    | [] => none
    | s' :: rest => pop_must m rest s'
  else some (_pop m s)

/-- `std::condition_variable::wait_until(lock, tp, pred)` with
`pred = "container non-empty"` (src/queue_ts.hpp lines 116 and 128-129):
if the predicate holds it returns `true` at once; if the deadline has
already passed the wait does not block and returns the predicate's value;
otherwise the thread blocks and re-checks the predicate at each wake.
`env` lists the wake events — wake time and the queue state then (producers
may have run while the lock was released); when no wake arrives before the
deadline the wait times out with the state unchanged.  Returns the
predicate result and the state when the call ends. -/
def cvWaitUntil (now deadline : Int) (env : List (Int × Queue α)) (s : Queue α) :
    Bool × Queue α :=
  if s._container.isEmpty = false then (true, s)
  else if deadline ≤ now then (false, s)
  else
    match env with
    | [] => (false, s)
    | (t, s') :: rest => if deadline < t then (false, s) else cvWaitUntil t deadline rest s'

/-- `Queue::pop_until` (src/queue_ts.hpp lines 123-134): if
`_cv.wait_until(lock, timeout_time, pred)` returns `true` then `_pop`,
otherwise return `nullptr`. -/
def pop_until [DecidableEq α] (m : CmpArg α) (now deadline : Int)
    (env : List (Int × Queue α)) (s : Queue α) : Ptr α × Queue α :=
  match cvWaitUntil now deadline env s with
  | (true, s') => _pop m s'
  | (false, s') => (none, s')

/-- `Queue::pop_for` (src/queue_ts.hpp lines 111-120):
`_cv.wait_for(lock, timeout, pred)` is by definition `wait_until` at the
absolute deadline `now + timeout` on the same clock. -/
def pop_for [DecidableEq α] (m : CmpArg α) (now timeout : Int)
    (env : List (Int × Queue α)) (s : Queue α) : Ptr α × Queue α :=
  pop_until m now (now + timeout) env s

/-- Modelled from the spec: the class in src/queue_ts.hpp declares no
`size()` member (the spec lists `size` "where exposed"; the repository's
other queue versions are not under src/).  Per spec sections 4.1 and 6:
acquires the lock and returns the current element count of the container
as a snapshot. -/
def size (s : Queue α) : Nat := s._container.length

/-! ### Basic facts about `_pop` and the waits -/

/-- The scan that models `top()` returns one of the scanned elements. -/
theorem foldl_pick_mem (f : Ptr α → Ptr α → Bool) :
    ∀ (l : List (Ptr α)) (p : Ptr α),
      l.foldl (fun acc x => if f acc x then x else acc) p ∈ p :: l := by
  intro l
  induction l with
  | nil => intro p; simp
  | cons x t ih =>
      intro p
      simp only [List.foldl_cons]
      rcases List.mem_cons.mp (ih (if f p x then x else p)) with h | h
      · rw [h]
        by_cases hf : f p x <;> simp [hf]
      · simp [h]

theorem heapTop_mem (f : Ptr α → Ptr α → Bool) (p : Ptr α) (rest : List (Ptr α)) :
    heapTop f p rest ∈ p :: rest :=
  foldl_pick_mem f rest p

/-- Removing a stored handle leaves a permutation witness: the container
before the removal holds exactly the removed handle plus the container
after it. -/
theorem perm_cons_removeFirst [DecidableEq α] {t : Ptr α} :
    ∀ {l : List (Ptr α)}, t ∈ l → l.Perm (t :: removeFirst t l) := by
  intro l
  induction l with
  | nil => intro h; cases h
  | cons x xs ih =>
      intro h
      by_cases hx : x = t
      · subst hx; simp [removeFirst]
      · have hmem : t ∈ xs := by
          rcases List.mem_cons.mp h with h1 | h1
          · exact absurd h1.symm hx
          · exact h1
        simp only [removeFirst, if_neg hx]
        exact ((ih hmem).cons x).trans (List.Perm.swap t x (removeFirst t xs))

/-- On a non-empty container, `_pop` returns a stored handle, the stored
handles afterwards are exactly the stored handles before minus the returned
one (as multisets), and the allocator is untouched. -/
theorem _pop_spec [DecidableEq α] (m : CmpArg α) (s : Queue α) (h : s._container ≠ []) :
    (_pop m s).1 ∈ s._container
    ∧ s._container.Perm ((_pop m s).1 :: (_pop m s).2._container)
    ∧ (_pop m s).2.nextAlloc = s.nextAlloc := by
  rcases s with ⟨c, a⟩
  obtain ⟨p, rest, rfl⟩ : ∃ p rest, c = p :: rest := by
    cases c with
    | nil => exact absurd rfl h
    | cons p rest => exact ⟨p, rest, rfl⟩
  cases m with
  | void =>
      refine ⟨List.mem_cons_self _ _, List.Perm.refl _, rfl⟩
  | cmp f =>
      have hmem := heapTop_mem f p rest
      exact ⟨hmem, perm_cons_removeFirst hmem, rfl⟩

/-- A `wait_until` whose absolute deadline has already passed ends at once:
whatever wake events would have come later, it returns the predicate's
current value and leaves the state alone. -/
theorem cvWaitUntil_past (now deadline : Int) (env : List (Int × Queue α))
    (s : Queue α) (h : deadline ≤ now) :
    cvWaitUntil now deadline env s = (!s._container.isEmpty, s) := by
  by_cases he : s._container.isEmpty <;> cases env <;> simp [cvWaitUntil, he, h]

/-- `pop_until` at a deadline in the past returns what `pop_try` would,
independently of any concurrent activity. -/
theorem pop_until_past [DecidableEq α] (m : CmpArg α) (now deadline : Int)
    (env : List (Int × Queue α)) (s : Queue α) (h : deadline ≤ now) :
    pop_until m now deadline env s = pop_try m s := by
  rw [pop_until, cvWaitUntil_past now deadline env s h]
  by_cases he : s._container.isEmpty <;> simp [he, pop_try]

/-! ### C4: pop_try on an empty queue -/

/-- C4: for every queue state in which the container is empty, `pop_try`
returns the null handle immediately and leaves the queue's contents
unchanged. -/
theorem C4_pop_try_empty [DecidableEq α] (m : CmpArg α) (s : Queue α)
    (h : s._container = []) : pop_try m s = (none, s) := by
  simp [pop_try, h]

theorem C4_pop_try_empty_witness :
    pop_try CmpArg.void (emptyQueue Nat) = (none, emptyQueue Nat) :=
  C4_pop_try_empty CmpArg.void (emptyQueue Nat) rfl

/-! ### C5: pop_try agrees with pop_must on non-empty states -/

/-- C5: for every non-empty queue state, `pop_try` performs exactly
`pop_must`'s removal step: `pop_must` returns at once (no wait, whatever
wake events are available) with the same handle and the same remaining
contents as `pop_try`. -/
theorem C5_pop_try_eq_pop_must [DecidableEq α] (m : CmpArg α)
    (wakes : List (Queue α)) (s : Queue α) (h : s._container ≠ []) :
    pop_must m wakes s = some (pop_try m s) := by
  have he : s._container.isEmpty = false := by
    cases hc : s._container with
    | nil => exact absurd hc h
    | cons p rest => rfl
  cases wakes <;> simp [pop_must, pop_try, he]

theorem C5_pop_try_eq_pop_must_witness :
    (push 7 (emptyQueue Nat))._container ≠ []
    ∧ pop_must CmpArg.void [] (push 7 (emptyQueue Nat))
        = some (pop_try CmpArg.void (push 7 (emptyQueue Nat))) :=
  ⟨by decide, C5_pop_try_eq_pop_must CmpArg.void [] (push 7 (emptyQueue Nat)) (by decide)⟩

/-! ### C6: pop_for with zero or negative duration -/

/-- C6: for every queue state, `pop_for` with a non-positive duration
returns exactly what `pop_try` returns (handle or null, same remaining
contents), independently of concurrent wake events; in particular a
negative duration behaves the same as a zero duration. -/
theorem C6_pop_for_nonpos [DecidableEq α] (m : CmpArg α) (now timeout : Int)
    (env : List (Int × Queue α)) (s : Queue α) (h : timeout ≤ 0) :
    pop_for m now timeout env s = pop_try m s
    ∧ pop_for m now timeout env s = pop_for m now 0 env s := by
  constructor
  · exact pop_until_past m now (now + timeout) env s (by omega)
  · rw [pop_for, pop_until_past m now (now + timeout) env s (by omega)]
    rw [pop_for, pop_until_past m now (now + 0) env s (by omega)]

theorem C6_pop_for_nonpos_witness :
    (-3 : Int) ≤ 0
    ∧ (pop_for CmpArg.void 10 (-3) [(11, push 1 (emptyQueue Nat))] (push 2 (emptyQueue Nat))
          = pop_try CmpArg.void (push 2 (emptyQueue Nat))
       ∧ pop_for CmpArg.void 10 (-3) [(11, push 1 (emptyQueue Nat))] (push 2 (emptyQueue Nat))
          = pop_for CmpArg.void 10 0 [(11, push 1 (emptyQueue Nat))] (push 2 (emptyQueue Nat))) :=
  ⟨by decide,
   C6_pop_for_nonpos CmpArg.void 10 (-3) [(11, push 1 (emptyQueue Nat))]
     (push 2 (emptyQueue Nat)) (by decide)⟩

/-! ### C7: pop_until with a deadline already in the past -/

/-- C7: for every queue state, `pop_until` with an absolute deadline that
has already passed behaves like `pop_try`: it does not wait for any wake
event and returns the front/top handle if the container is non-empty and
null if it is empty, with the same resulting state as `pop_try`. -/
theorem C7_pop_until_past [DecidableEq α] (m : CmpArg α) (now deadline : Int)
    (env : List (Int × Queue α)) (s : Queue α) (h : deadline ≤ now) :
    pop_until m now deadline env s = pop_try m s :=
  pop_until_past m now deadline env s h

theorem C7_pop_until_past_witness :
    (2 : Int) ≤ 5
    ∧ pop_until CmpArg.void 5 2 [(3, push 9 (emptyQueue Nat))] (emptyQueue Nat)
        = pop_try CmpArg.void (emptyQueue Nat) :=
  ⟨by decide,
   C7_pop_until_past CmpArg.void 5 2 [(3, push 9 (emptyQueue Nat))] (emptyQueue Nat)
     (by decide)⟩

/-! ### C8: size -/

/-- C8: `size` returns the current element count of the container: it is 0
on a fresh queue, grows by one with each push and shrinks by one with each
successful pop. -/
theorem C8_size_snapshot [DecidableEq α] (m : CmpArg α) (v : α) (s : Queue α) :
    size (emptyQueue α) = 0
    ∧ size (push v s) = size s + 1
    ∧ (s._container ≠ [] → size (pop_try m s).2 + 1 = size s) := by
  refine ⟨rfl, by simp [size, push], ?_⟩
  intro h
  have he : s._container.isEmpty = false := by
    cases hc : s._container with
    | nil => exact absurd hc h
    | cons p rest => rfl
  obtain ⟨-, hperm, -⟩ := _pop_spec m s h
  have hlen := hperm.length_eq
  simp only [List.length_cons] at hlen
  have : pop_try m s = _pop m s := by simp [pop_try, he]
  rw [this]
  simp only [size]
  omega

theorem C8_size_snapshot_witness :
    (push 4 (emptyQueue Nat))._container ≠ []
    ∧ size (pop_try CmpArg.void (push 4 (emptyQueue Nat))).2 + 1
        = size (push 4 (emptyQueue Nat)) :=
  ⟨by decide,
   (C8_size_snapshot CmpArg.void 4 (push 4 (emptyQueue Nat))).2.2 (by decide)⟩

/-! ### C1: FIFO order -/

/-- The handles a burst of pushes creates: each value tagged, in order,
with the consecutive fresh addresses the allocator hands out from `a`. -/
def tagFrom (a : Nat) : List α → List (Nat × α)
  | [] => []
  | v :: vs => (a, v) :: tagFrom (a + 1) vs

/-- A sequence of `push` calls, earliest value first. -/
def pushAll (vs : List α) (s : Queue α) : Queue α :=
  match vs with
  | [] => s
  | v :: vs => pushAll vs (push v s)

/-- `n` successive `pop_try` calls, collecting the returned handles in
order. -/
def popN [DecidableEq α] (m : CmpArg α) : Nat → Queue α → List (Ptr α) × Queue α
  | 0, s => ([], s)
  | n + 1, s =>
      let r := pop_try m s
      let rest := popN m n r.2
      (r.1 :: rest.1, rest.2)

theorem tagFrom_map_snd : ∀ (a : Nat) (vs : List α), (tagFrom a vs).map Prod.snd = vs := by
  intro a vs
  induction vs generalizing a with
  | nil => rfl
  | cons v vs ih => simp [tagFrom, ih]

theorem tagFrom_length : ∀ (a : Nat) (vs : List α), (tagFrom a vs).length = vs.length := by
  intro a vs
  induction vs generalizing a with
  | nil => rfl
  | cons v vs ih => simp [tagFrom, ih]

/-- Pushing `vs` appends, in order, one freshly addressed non-null handle
per value and advances the allocator. -/
theorem pushAll_go : ∀ (vs : List α) (c : List (Ptr α)) (a : Nat),
    pushAll vs ⟨c, a⟩ = ⟨c ++ (tagFrom a vs).map some, a + vs.length⟩ := by
  intro vs
  induction vs with
  | nil => intro c a; simp [pushAll, tagFrom]
  | cons v vs ih =>
      intro c a
      show pushAll vs ⟨c ++ [some (a, v)], a + 1⟩ = _
      rw [ih]
      congr 1
      · simp [tagFrom, List.append_assoc]
      · simp [List.length_cons]; omega

/-- In FIFO mode, successive `pop_try` calls drain the container front to
back. -/
theorem popN_void [DecidableEq α] :
    ∀ (l : List (Ptr α)) (a : Nat),
      popN CmpArg.void l.length ⟨l, a⟩ = (l, ⟨[], a⟩) := by
  intro l
  induction l with
  | nil => intro a; simp [popN]
  | cons p rest ih =>
      intro a
      have hpt : pop_try CmpArg.void (⟨p :: rest, a⟩ : Queue α) = (p, ⟨rest, a⟩) := by
        simp [pop_try, _pop]
      simp [popN, hpt, ih a]

/-- C1: for a FIFO-configured queue (`Cmp = void`), pushing `p1..pn` and
then popping with no interleaving returns the pushed values in exactly the
order `p1..pn`: each pop removes the earliest-inserted surviving item. -/
theorem C1_fifo_order [DecidableEq α] (vs : List α) :
    ((popN CmpArg.void vs.length (pushAll vs (emptyQueue α))).1).map (Option.map Prod.snd)
      = vs.map some
    ∧ (popN CmpArg.void vs.length (pushAll vs (emptyQueue α))).1
      = (tagFrom 0 vs).map some := by
  have h1 : pushAll vs (emptyQueue α) = ⟨(tagFrom 0 vs).map some, vs.length⟩ := by
    simpa [emptyQueue] using pushAll_go vs [] 0
  have hlen : ((tagFrom 0 vs).map some).length = vs.length := by
    simp [List.length_map, tagFrom_length]
  have h2 : (popN CmpArg.void vs.length (pushAll vs (emptyQueue α))).1
      = (tagFrom 0 vs).map some := by
    rw [h1, ← hlen, popN_void]
  refine ⟨?_, h2⟩
  rw [h2, List.map_map]
  rw [show (Option.map (Prod.snd : Nat × α → α)) ∘ some = some ∘ (Prod.snd : Nat × α → α)
      from rfl]
  rw [← List.map_map, tagFrom_map_snd]

/-! ### Interleaved traces of pushes and pops (C2, C10) -/

/-- One client call in a serialized interleaving: a `push` of a value or a
`pop_try` attempt.  The lock serializes the critical sections, so any
concurrent history of pushes and pop attempts acts on the container as
some such sequence. -/
inductive Op (α : Type) where
  | pushOp (v : α) : Op α
  | popTryOp : Op α

/-- The values pushed by a trace, in order. -/
def pushedVals : List (Op α) → List α
  | [] => []
  | .pushOp v :: ops => v :: pushedVals ops
  | .popTryOp :: ops => pushedVals ops

/-- One step: run the call on the queue state, recording the handle of a
successful pop (a non-null return). -/
def applyOp [DecidableEq α] (m : CmpArg α) (sr : Queue α × List (Nat × α)) (op : Op α) :
    Queue α × List (Nat × α) :=
  match op with
  | .pushOp v => (push v sr.1, sr.2)
  | .popTryOp =>
      match pop_try m sr.1 with
      | (some h, s') => (s', sr.2 ++ [h])
      | (none, s') => (s', sr.2)

def runFrom [DecidableEq α] (m : CmpArg α) :
    List (Op α) → Queue α × List (Nat × α) → Queue α × List (Nat × α)
  | [], sr => sr
  | op :: ops, sr => runFrom m ops (applyOp m sr op)

/-- Run a trace against a fresh queue, returning the final state and the
handles delivered by the successful pops, in delivery order. -/
def runOps [DecidableEq α] (m : CmpArg α) (ops : List (Op α)) :
    Queue α × List (Nat × α) :=
  runFrom m ops (emptyQueue α, [])

/-- The handles stored in a container (in reachable states they are all
non-null, so this loses nothing). -/
def handlesOf (c : List (Ptr α)) : List (Nat × α) := c.filterMap id

/-- Invariant of reachable queue states, relative to the already delivered
handles `r`: every stored pointer is non-null, no address is shared by two
live handles (stored or delivered), and every address came from the
allocator. -/
def Inv (s : Queue α) (r : List (Nat × α)) : Prop :=
  (∀ p ∈ s._container, p ≠ none)
  ∧ ((handlesOf s._container ++ r).map Prod.fst).Nodup
  ∧ (∀ h ∈ handlesOf s._container ++ r, h.1 < s.nextAlloc)

theorem isEmpty_false_of_ne_nil {β : Type} {c : List β} (h : c ≠ []) :
    c.isEmpty = false := by
  cases c with
  | nil => exact absurd rfl h
  | cons x xs => rfl

theorem Inv_emptyQueue : Inv (emptyQueue α) [] := by
  refine ⟨?_, ?_, ?_⟩ <;> simp [emptyQueue, handlesOf]

theorem handlesOf_length :
    ∀ (c : List (Ptr α)), (∀ p ∈ c, p ≠ none) → (handlesOf c).length = c.length := by
  intro c
  induction c with
  | nil => intro _; rfl
  | cons p rest ih =>
      intro h
      obtain ⟨x, rfl⟩ : ∃ x, p = some x := by
        cases p with
        | none => exact absurd rfl (h none (List.mem_cons_self _ _))
        | some x => exact ⟨x, rfl⟩
      simp only [handlesOf, List.filterMap_cons, id] at *
      simp [ih (fun q hq => h q (List.mem_cons_of_mem _ hq))]

/-- A push preserves the invariant; the live handles afterwards are the
old ones plus the freshly allocated one. -/
theorem Inv_push (v : α) (s : Queue α) (r : List (Nat × α)) (hInv : Inv s r) :
    Inv (push v s) r
    ∧ (handlesOf (push v s)._container ++ r).Perm
        ((s.nextAlloc, v) :: (handlesOf s._container ++ r)) := by
  obtain ⟨hsome, hnd, hlt⟩ := hInv
  have hh : handlesOf (push v s)._container
      = handlesOf s._container ++ [(s.nextAlloc, v)] := by
    show handlesOf (s._container ++ [some (s.nextAlloc, v)]) = _
    simp [handlesOf, List.filterMap_append]
  have hperm : (handlesOf (push v s)._container ++ r).Perm
      ((s.nextAlloc, v) :: (handlesOf s._container ++ r)) := by
    rw [hh, List.append_assoc]
    exact List.perm_middle
  refine ⟨⟨?_, ?_, ?_⟩, hperm⟩
  · intro p hp
    rcases List.mem_append.mp hp with h1 | h1
    · exact hsome p h1
    · simp only [List.mem_singleton] at h1
      subst h1; exact Option.noConfusion
  · have hnotin : s.nextAlloc ∉ (handlesOf s._container ++ r).map Prod.fst := by
      intro hmem
      obtain ⟨x, hx, hfst⟩ := List.mem_map.mp hmem
      have := hlt x hx
      omega
    refine ((hperm.map Prod.fst).nodup_iff).mpr ?_
    simp only [List.map_cons]
    exact List.nodup_cons.mpr ⟨hnotin, hnd⟩
  · intro x hx
    have hx2 := hperm.mem_iff.mp hx
    rcases List.mem_cons.mp hx2 with h1 | h1
    · subst h1
      show s.nextAlloc < (push v s).nextAlloc
      simp [push]
    · have := hlt x h1
      show x.1 < (push v s).nextAlloc
      simp only [push]
      omega

/-- A successful `pop_try` (non-empty container) returns a non-null stored
handle, removes exactly it, keeps the allocator, and preserves the
invariant with the handle appended to the delivered list. -/
theorem Inv_popTry [DecidableEq α] (m : CmpArg α) (s : Queue α) (r : List (Nat × α))
    (hInv : Inv s r) (hne : s._container ≠ []) :
    ∃ h s', pop_try m s = (some h, s')
      ∧ s'.nextAlloc = s.nextAlloc
      ∧ s'._container.length + 1 = s._container.length
      ∧ (handlesOf s'._container ++ (r ++ [h])).Perm (handlesOf s._container ++ r)
      ∧ Inv s' (r ++ [h]) := by
  obtain ⟨hsome, hnd, hlt⟩ := hInv
  have he : s._container.isEmpty = false := isEmpty_false_of_ne_nil hne
  have hpt : pop_try m s = _pop m s := by simp [pop_try, he]
  obtain ⟨hmem, hperm, hna⟩ := _pop_spec m s hne
  obtain ⟨h, hh⟩ : ∃ h, (_pop m s).1 = some h := by
    cases hq : (_pop m s).1 with
    | none => rw [hq] at hmem; exact absurd rfl (hsome none hmem)
    | some h => exact ⟨h, rfl⟩
  have hfm : (handlesOf s._container).Perm (h :: handlesOf (_pop m s).2._container) := by
    have hfme := hperm.filterMap id
    rw [hh] at hfme
    simpa [handlesOf, List.filterMap_cons] using hfme
  have hcomb : (handlesOf (_pop m s).2._container ++ (r ++ [h])).Perm
      (handlesOf s._container ++ r) := by
    have s1 : (handlesOf (_pop m s).2._container ++ (r ++ [h]))
        = (handlesOf (_pop m s).2._container ++ r) ++ [h] := by
      rw [List.append_assoc]
    have s2 : ((handlesOf (_pop m s).2._container ++ r) ++ [h]).Perm
        (h :: (handlesOf (_pop m s).2._container ++ r)) := by
      simpa using
        @List.perm_append_comm _ (handlesOf (_pop m s).2._container ++ r) [h]
    rw [s1]
    refine s2.trans ?_
    have s3 : (h :: (handlesOf (_pop m s).2._container ++ r))
        = (h :: handlesOf (_pop m s).2._container) ++ r := rfl
    rw [s3]
    exact (hfm.symm).append_right r
  refine ⟨h, (_pop m s).2, ?_, hna, ?_, hcomb, ?_, ?_, ?_⟩
  · rw [hpt, ← hh]
  · have := hperm.length_eq
    simp only [List.length_cons] at this
    omega
  · intro p hp
    have hp2 : p ∈ s._container := hperm.mem_iff.mpr (List.mem_cons_of_mem _ hp)
    exact hsome p hp2
  · exact ((hcomb.map Prod.fst).nodup_iff).mpr hnd
  · intro x hx
    have hx2 := hcomb.mem_iff.mp hx
    have := hlt x hx2
    rw [hna]
    exact this

/-- Main trace induction: from any invariant-satisfying configuration, a
trace keeps the invariant, and the live handles at the end carry exactly
the starting values plus the pushed values (as multisets). -/
theorem runFrom_inv [DecidableEq α] (m : CmpArg α) :
    ∀ (ops : List (Op α)) (s : Queue α) (r : List (Nat × α)), Inv s r →
      Inv (runFrom m ops (s, r)).1 (runFrom m ops (s, r)).2
      ∧ ((handlesOf (runFrom m ops (s, r)).1._container ++ (runFrom m ops (s, r)).2).map
            Prod.snd).Perm
          ((handlesOf s._container ++ r).map Prod.snd ++ pushedVals ops) := by
  intro ops
  induction ops with
  | nil =>
      intro s r hInv
      refine ⟨hInv, ?_⟩
      simp [runFrom, pushedVals]
  | cons op ops ih =>
      intro s r hInv
      cases op with
      | pushOp v =>
          obtain ⟨hInv2, hperm⟩ := Inv_push v s r hInv
          have hrun : runFrom m (Op.pushOp v :: ops) (s, r)
              = runFrom m ops (push v s, r) := rfl
          rw [hrun]
          obtain ⟨hI, hP⟩ := ih (push v s) r hInv2
          refine ⟨hI, hP.trans ?_⟩
          simp only [pushedVals]
          have hs : ((handlesOf (push v s)._container ++ r).map Prod.snd).Perm
              (v :: (handlesOf s._container ++ r).map Prod.snd) := by
            have hm := hperm.map Prod.snd
            simpa using hm
          exact (hs.append_right _).trans List.perm_middle.symm
      | popTryOp =>
          by_cases hc : s._container = []
          · have h0 : pop_try m s = (none, s) := by simp [pop_try, hc]
            have hrun : runFrom m (Op.popTryOp :: ops) (s, r) = runFrom m ops (s, r) := by
              simp [runFrom, applyOp, h0]
            rw [hrun]
            obtain ⟨hI, hP⟩ := ih s r hInv
            exact ⟨hI, by simpa [pushedVals] using hP⟩
          · obtain ⟨h, s', heq, -, -, hperm2, hInv2⟩ := Inv_popTry m s r hInv hc
            have hrun : runFrom m (Op.popTryOp :: ops) (s, r)
                = runFrom m ops (s', r ++ [h]) := by
              simp [runFrom, applyOp, heq]
            rw [hrun]
            obtain ⟨hI, hP⟩ := ih s' (r ++ [h]) hInv2
            refine ⟨hI, hP.trans ?_⟩
            simp only [pushedVals]
            exact (hperm2.map Prod.snd).append_right _

/-- The final configuration of any trace run from a fresh queue satisfies
the invariant, and the multiset of live handle values equals the multiset
of pushed values. -/
theorem runOps_inv [DecidableEq α] (m : CmpArg α) (ops : List (Op α)) :
    Inv (runOps m ops).1 (runOps m ops).2
    ∧ ((handlesOf (runOps m ops).1._container ++ (runOps m ops).2).map Prod.snd).Perm
        (pushedVals ops) := by
  obtain ⟨hI, hP⟩ := runFrom_inv m ops (emptyQueue α) [] Inv_emptyQueue
  refine ⟨hI, hP.trans ?_⟩
  simp [emptyQueue, handlesOf]

/-- C2: every successful pop removes the returned item from the container
before returning it; over any interleaving of pushes and pop attempts the
delivered handles are pairwise distinct items whose values were previously
pushed (each consumed at most once), the element count equals pushes minus
successful pops, and each push or successful pop changes the count by
exactly +1 or -1. -/
theorem C2_conservation [DecidableEq α] (m : CmpArg α) (ops : List (Op α)) :
    ((runOps m ops).2.map Prod.fst).Nodup
    ∧ ((runOps m ops).2.map Prod.snd).Subperm (pushedVals ops)
    ∧ (runOps m ops).1._container.length + (runOps m ops).2.length
        = (pushedVals ops).length
    ∧ (∀ h ∈ (runOps m ops).2, some h ∉ (runOps m ops).1._container)
    ∧ (∀ (v : α) (s : Queue α), (push v s)._container.length = s._container.length + 1)
    ∧ (∀ s : Queue α, s._container ≠ [] →
        (pop_try m s).2._container.length + 1 = s._container.length)
    ∧ (∀ s : Queue α, s._container = [] → pop_try m s = (none, s)) := by
  obtain ⟨⟨hsome, hnd, hlt⟩, hP⟩ := runOps_inv m ops
  have hndm : ((handlesOf (runOps m ops).1._container).map Prod.fst
      ++ (runOps m ops).2.map Prod.fst).Nodup := by
    rw [← List.map_append]; exact hnd
  refine ⟨?_, ?_, ?_, ?_, ?_, ?_, ?_⟩
  · exact hndm.of_append_right
  · have hsub : List.Sublist ((runOps m ops).2.map Prod.snd)
        ((handlesOf (runOps m ops).1._container ++ (runOps m ops).2).map Prod.snd) := by
      rw [List.map_append]
      exact List.sublist_append_right _ _
    exact hsub.subperm.trans hP.subperm
  · have hlen := hP.length_eq
    rw [List.length_map, List.length_append] at hlen
    have hhl := handlesOf_length (runOps m ops).1._container hsome
    omega
  · intro h hR hC
    have hfil : h ∈ handlesOf (runOps m ops).1._container :=
      List.mem_filterMap.mpr ⟨some h, hC, rfl⟩
    have hdis := List.disjoint_of_nodup_append hndm
    exact hdis (List.mem_map_of_mem Prod.fst hfil) (List.mem_map_of_mem Prod.fst hR)
  · intro v s
    simp [push]
  · intro s hne
    have he := isEmpty_false_of_ne_nil hne
    have hpt : pop_try m s = _pop m s := by simp [pop_try, he]
    obtain ⟨-, hperm, -⟩ := _pop_spec m s hne
    have hl := hperm.length_eq
    simp only [List.length_cons] at hl
    rw [hpt]
    omega
  · intro s hc
    simp [pop_try, hc]

theorem C2_conservation_witness :
    some ((0 : Nat), (5 : Nat)) ∉ (runOps CmpArg.void [Op.pushOp 5, Op.popTryOp]).1._container
    ∧ (pop_try CmpArg.void (push 5 (emptyQueue Nat))).2._container.length + 1
        = (push 5 (emptyQueue Nat))._container.length
    ∧ pop_try CmpArg.void (emptyQueue Nat) = (none, emptyQueue Nat) :=
  ⟨(C2_conservation CmpArg.void [Op.pushOp 5, Op.popTryOp]).2.2.2.1 (0, 5) (by decide),
   (C2_conservation CmpArg.void []).2.2.2.2.2.1 (push 5 (emptyQueue Nat)) (by decide),
   (C2_conservation CmpArg.void []).2.2.2.2.2.2 (emptyQueue Nat) rfl⟩

/-! ### C10: successful pops return non-null handles -/

theorem cvWaitUntil_nonempty (now deadline : Int) (env : List (Int × Queue α))
    (s : Queue α) (he : s._container.isEmpty = false) :
    cvWaitUntil now deadline env s = (true, s) := by
  cases env <;> simp [cvWaitUntil, he]

/-- On a state whose stored pointers are all non-null, a pop returns null
exactly when the container is empty at the decision point; when non-empty,
every pop variant returns a non-null handle at once. -/
theorem pops_nonnull [DecidableEq α] (m : CmpArg α) (s : Queue α)
    (hsome : ∀ p ∈ s._container, p ≠ none) :
    ((pop_try m s).1 = none ↔ s._container = [])
    ∧ (s._container ≠ [] →
        (pop_try m s).1.isSome = true
        ∧ (∀ wakes, ∃ pr, pop_must m wakes s = some pr ∧ pr.1.isSome = true)
        ∧ (∀ now deadline env, (pop_until m now deadline env s).1.isSome = true)
        ∧ (∀ now timeout env, (pop_for m now timeout env s).1.isSome = true)) := by
  by_cases hc : s._container = []
  · constructor
    · simp [pop_try, hc]
    · intro hne
      exact absurd hc hne
  · have he := isEmpty_false_of_ne_nil hc
    have hpt : pop_try m s = _pop m s := by simp [pop_try, he]
    obtain ⟨hmem, -, -⟩ := _pop_spec m s hc
    have hq : (_pop m s).1.isSome = true := by
      cases hq2 : (_pop m s).1 with
      | none => rw [hq2] at hmem; exact absurd rfl (hsome none hmem)
      | some h => rfl
    constructor
    · rw [hpt]
      constructor
      · intro h0
        rw [h0] at hq
        simp at hq
      · intro h0
        exact absurd h0 hc
    · intro _hne
      refine ⟨by rw [hpt]; exact hq, ?_, ?_, ?_⟩
      · intro wakes
        refine ⟨_pop m s, ?_, hq⟩
        cases wakes <;> simp [pop_must, he]
      · intro now deadline env
        simp only [pop_until, cvWaitUntil_nonempty now deadline env s he]
        exact hq
      · intro now timeout env
        simp only [pop_for, pop_until,
          cvWaitUntil_nonempty now (now + timeout) env s he]
        exact hq

/-- C10: in every reachable state each stored pointer is non-null (push
only stores freshly allocated handles), so `pop_must` and, on a non-empty
container, `pop_try`/`pop_for`/`pop_until` return non-null handles, and a
null result from the non-blocking variants unambiguously means "no
value". -/
theorem C10_nonnull_handles [DecidableEq α] (m : CmpArg α) (ops : List (Op α)) :
    (∀ p ∈ (runOps m ops).1._container, p.isSome = true)
    ∧ ((pop_try m (runOps m ops).1).1 = none ↔ (runOps m ops).1._container = [])
    ∧ ((runOps m ops).1._container ≠ [] →
        (pop_try m (runOps m ops).1).1.isSome = true
        ∧ (∀ wakes, ∃ pr, pop_must m wakes (runOps m ops).1 = some pr
            ∧ pr.1.isSome = true)
        ∧ (∀ now deadline env,
            (pop_until m now deadline env (runOps m ops).1).1.isSome = true)
        ∧ (∀ now timeout env,
            (pop_for m now timeout env (runOps m ops).1).1.isSome = true)) := by
  obtain ⟨⟨hsome, -, -⟩, -⟩ := runOps_inv m ops
  have hmain := pops_nonnull m (runOps m ops).1 hsome
  refine ⟨?_, hmain.1, hmain.2⟩
  intro p hp
  have hne := hsome p hp
  cases p with
  | none => exact absurd rfl hne
  | some h => rfl

theorem C10_nonnull_handles_witness :
    (runOps CmpArg.void [Op.pushOp (3 : Nat)]).1._container ≠ []
    ∧ (pop_try CmpArg.void (runOps CmpArg.void [Op.pushOp (3 : Nat)]).1).1.isSome = true :=
  ⟨by decide, ((C10_nonnull_handles CmpArg.void [Op.pushOp 3]).2.2 (by decide)).1⟩

/-! ### C3, C9: the static_asserts and the StrictWeakOrder concept

The class body checks two static_asserts (src/queue_ts.hpp lines 28-33):
the SmartPtr argument must be `std::unique_ptr` or `std::shared_ptr`, and
`Cmp` must be `void` or satisfy `aux::StrictWeakOrder<T, Cmp>`
(lines 14-20).  That concept places two nested requirements,
`requires !comp(a, a);` and
`requires((comp(a, b) && comp(b, c)) ? comp(a, c) : true);`, whose bodies
must be constant expressions to be satisfied — but `a`, `b`, `c` and
`comp` are parameters of the requires-expression and denote no objects at
compile time, so a call `comp(x, y)` on them never constant-evaluates
(checked against the header with GCC 12: the concept is unsatisfied for
every `Compare`, including a `constexpr` integer less-than). -/

/-- The SmartPtr template argument, rendered as the cases the first
static_assert distinguishes: `std::unique_ptr`, `std::shared_ptr`, or any
other template. -/
inductive SmartPtrArg where
  | uniquePtr : SmartPtrArg
  | sharedPtr : SmartPtrArg
  | otherPtr : SmartPtrArg

/-- The first static_assert (src/queue_ts.hpp lines 28-30):
`is_same<SmartPtr<T>, unique_ptr<T>> || is_same<SmartPtr<T>, shared_ptr<T>>`. -/
def smartPtrAssert : SmartPtrArg → Bool
  | .uniquePtr => true
  | .sharedPtr => true
  | .otherPtr => false

/-- The body of a nested requirement of `aux::StrictWeakOrder`, as an
expression over the requires-expression parameters: a call of `comp` on
parameters, the literal `true`, and the `!`, `&&`, `?:` connectives the
two bodies use. -/
inductive ReqExpr where
  | cmpCall : ReqExpr
  | litTrue : ReqExpr
  | notE (e : ReqExpr) : ReqExpr
  | andE (e1 e2 : ReqExpr) : ReqExpr
  | condE (c t e : ReqExpr) : ReqExpr

/-- C++ constant-expression evaluation of a nested-requirement body.  The
requires-expression parameters denote no objects at compile time, so a
call of `comp` on them is not a constant expression (`none`); `&&` and
`?:` evaluate left to right and short-circuit. -/
def constEval : ReqExpr → Option Bool
  | .cmpCall => none
  | .litTrue => some true
  | .notE e => (constEval e).map (fun b => !b)
  | .andE e1 e2 =>
      match constEval e1 with
      | some false => some false
      | some true => constEval e2
      | none => none
  | .condE c t e =>
      match constEval c with
      | some true => constEval t
      | some false => constEval e
      | none => none

/-- `requires !comp(a, a);` (src/queue_ts.hpp line 18). -/
def swoReq1 : ReqExpr := ReqExpr.notE ReqExpr.cmpCall

/-- `requires((comp(a, b) && comp(b, c)) ? comp(a, c) : true);`
(src/queue_ts.hpp line 19). -/
def swoReq2 : ReqExpr :=
  ReqExpr.condE (ReqExpr.andE ReqExpr.cmpCall ReqExpr.cmpCall) ReqExpr.cmpCall
    ReqExpr.litTrue

/-- Satisfaction of `aux::StrictWeakOrder<T, Cmp>` (src/queue_ts.hpp
lines 14-20).  The compound requirement
`{ comp(a, b) } -> convertible_to<bool>` holds for every comparator the
embedding can express (they are Bool-valued by type); each nested
requirement is satisfied only if its body constant-evaluates to `true`.
The comparator itself is never consulted: constant evaluation fails on the
requires-parameters before `comp`'s meaning could matter. -/
def strictWeakOrderSat {α : Type} (_cmp : α → α → Bool) : Bool :=
  (constEval swoReq1 == some true) && (constEval swoReq2 == some true)

/-- The conjunction of the two static_asserts of `Queue` (src/queue_ts.hpp
lines 28-33); `c` is the `Cmp` template argument, `none` for `void`.  The
`||` of the second assert short-circuits, so the concept is not examined
in FIFO mode. -/
def queueStaticAsserts {α : Type} (p : SmartPtrArg) (c : Option (α → α → Bool)) : Bool :=
  smartPtrAssert p
    && (match c with
        | none => true
        | some f => strictWeakOrderSat f)

/-- A strict weak order over values in the sense the spec's glossary and
the concept's two nested requirements name: irreflexive and transitive. -/
def StrictWeakOrderOn {α : Type} (cmp : α → α → Bool) : Prop :=
  (∀ a, cmp a a = false)
  ∧ (∀ a b c, cmp a b = true → cmp b c = true → cmp a c = true)

/-- C9 (evaluation of the code at the failing input): the static_asserts
accept the exclusive and shared FIFO configurations and reject other smart
pointers, as claimed — but they also reject every priority configuration:
integer less-than is a strict weak order, yet
`Queue<Nat, unique_ptr/shared_ptr, (<)>` fails the assert, because the
concept's nested requirements never constant-evaluate, whatever the
comparator.  This contradicts the claim's acceptance direction. -/
theorem C9_staticAssert_rejects_valid_comparator :
    StrictWeakOrderOn (fun a b : Nat => decide (a < b))
    ∧ queueStaticAsserts SmartPtrArg.uniquePtr
        (some (fun a b : Nat => decide (a < b))) = false
    ∧ queueStaticAsserts SmartPtrArg.sharedPtr
        (some (fun a b : Nat => decide (a < b))) = false
    ∧ (∀ f : Nat → Nat → Bool, queueStaticAsserts SmartPtrArg.sharedPtr (some f) = false)
    ∧ queueStaticAsserts SmartPtrArg.uniquePtr (none : Option (Nat → Nat → Bool)) = true
    ∧ queueStaticAsserts SmartPtrArg.sharedPtr (none : Option (Nat → Nat → Bool)) = true
    ∧ queueStaticAsserts SmartPtrArg.otherPtr (none : Option (Nat → Nat → Bool)) = false := by
  refine ⟨⟨?_, ?_⟩, rfl, rfl, fun f => rfl, rfl, rfl, rfl⟩
  · intro a
    simp
  · intro a b c h1 h2
    simp only [decide_eq_true_eq] at *
    omega

/-- `std::less<>` (a transparent comparator, one of the few types usable
as `Cmp` at both faces) as the container instantiates it, at the stored
element type `shared_ptr<int>`: `shared_ptr`'s `operator<` compares the
owned addresses, a null handle ordering before every non-null one. -/
def lessOnHandles (p q : Ptr Nat) : Bool :=
  match p, q with
  | none, none => false
  | none, some _ => true
  | some _, none => false
  | some h1, some h2 => decide (h1.1 < h2.1)

/-- The same `std::less<>` at the value type `int` — the face of the
comparator that `StrictWeakOrder<T, Cmp>` constrains. -/
def lessOnValues (a b : Nat) : Bool := decide (a < b)

/-- C3 (evaluation of the code at the failing input): the
priority-configured queue never instantiates — the concept rejects even
this strict weak order over int — and, setting the static_assert aside,
the container applies `Cmp` to the stored handles, not to dereferenced
values: after pushing 5 then 3, a pop under `std::less<>` removes the
handle at the larger address, whose underlying value 3 compares smaller
than the value 5 still stored, so the removed item is not the
value-greatest one the claim describes. -/
theorem C3_priority_compares_handles :
    strictWeakOrderSat lessOnValues = false
    ∧ StrictWeakOrderOn lessOnValues
    ∧ (_pop (CmpArg.cmp lessOnHandles) (push 3 (push 5 (emptyQueue Nat)))).1 = some (1, 3)
    ∧ some (0, 5) ∈ (push 3 (push 5 (emptyQueue Nat)))._container
    ∧ lessOnValues 3 5 = true := by
  refine ⟨rfl, ⟨?_, ?_⟩, by decide, by decide, rfl⟩
  · intro a
    simp [lessOnValues]
  · intro a b c h1 h2
    simp only [lessOnValues, decide_eq_true_eq] at *
    omega

end ThreadSafe
